import Mathlib

/-!
Shallow embedding of the flashcard scheduler in `src/PS1/src/algorithm.ts`
(the Leitner-style bucket scheduler of the repository), together with proofs
of the specified properties.  JS `Map<number, Set<Flashcard>>` values are
modelled as insertion-ordered association lists of bucket number / card set
pairs; JS `Set` contents are `Finset`s; a flashcard is identified by its
reference identity, modelled as a natural number.
-/

namespace Flashcards

/-- Cards are looked up by reference identity inside sets in the TS code;
a card is modelled as its identity. -/
abbrev Card := ℕ

/-- Modelled from the spec: the file `flashcards.ts` defining the card record
is not among the sources; spec section 3 fixes an immutable record with a
front, a back, an optional hint string and tag strings.  Only `back` and
`hint` are read by `getHint`. -/
structure Flashcard where
  front : String
  back : String
  hint : Option String
  tags : List String
deriving DecidableEq, Repr

/-- Modelled from the spec: `AnswerDifficulty` also lives in the missing
`flashcards.ts`; spec section 3 fixes exactly three variants, in this
order. -/
inductive AnswerDifficulty
  | Wrong
  | Hard
  | Easy
deriving DecidableEq, Repr

/-- A JS `Map<number, Set<Flashcard>>`: an insertion-ordered association
list with unique keys (uniqueness is a hypothesis where a claim needs it). -/
abbrev BucketMap := List (ℕ × Finset Card)

/-- `m.get(k)` on a JS map: the value at the first occurrence of key `k`. -/
def mapGet (m : BucketMap) (k : ℕ) : Option (Finset Card) :=
  (m.find? (fun p => p.1 == k)).map Prod.snd

/-- `m.has(k)` on a JS map. -/
def mapHas (m : BucketMap) (k : ℕ) : Bool :=
  (m.find? (fun p => p.1 == k)).isSome

/-- The card sits in bucket `k` of the sparse map: the map stores a set under
key `k` and that set contains the card. -/
def memBucket (m : BucketMap) (k : ℕ) (c : Card) : Prop :=
  ∃ s, mapGet m k = some s ∧ c ∈ s

/-- Largest key of the map: `Math.max(...buckets.keys())` (algorithm.ts
line 27); for a nonempty list of naturals, folding `max` from 0 computes
exactly that maximum. -/
def maxKey (m : BucketMap) : ℕ :=
  (m.map Prod.fst).foldl max 0

/-- `toBucketSets` (algorithm.ts lines 21-41): an empty map gives an empty
array; otherwise allocate `maxBucket + 1` empty sets (lines 30-33) and then
overwrite index `bucketNum` with the stored set for every map entry
(lines 36-38). -/
def toBucketSets (buckets : BucketMap) : List (Finset Card) :=
  if buckets.length = 0 then []
  else
    buckets.foldl (fun result p => result.set p.1 p.2)
      (List.replicate (maxKey buckets + 1) (∅ : Finset Card))

/-- Scan loop of `getBucketRange` (algorithm.ts lines 58-66): walk the array
with index `i`, keeping `minBucket` and `maxBucket`, both started at -1;
a non-empty set records `i` as `minBucket` when none was seen yet and always
as `maxBucket`. -/
def bucketRangeLoop : List (Finset Card) → ℕ → ℤ × ℤ → ℤ × ℤ
  | [], _, acc => acc
  | s :: rest, i, (mn, mx) =>
      if 0 < s.card then
        bucketRangeLoop rest (i + 1) (if mn = -1 then ((i : ℤ), (i : ℤ)) else (mn, (i : ℤ)))
      else
        bucketRangeLoop rest (i + 1) (mn, mx)

/-- `getBucketRange` (algorithm.ts lines 51-74): `none` when the scan never
saw a non-empty set, otherwise the pair `(minBucket, maxBucket)`. -/
def getBucketRange (buckets : List (Finset Card)) : Option (ℤ × ℤ) :=
  let r := bucketRangeLoop buckets 0 (-1, -1)
  if r.1 = -1 then none else some r

/-- `practice` (algorithm.ts lines 85-114): day 0 collects bucket 0 if the
array has one (lines 92-100); a positive day collects bucket `day` when
`day` is inside the array bounds (lines 104-111); otherwise the result stays
empty. -/
def practice (buckets : List (Finset Card)) (day : ℕ) : Finset Card :=
  if day = 0 then buckets.getD 0 ∅
  else if day < buckets.length then buckets.getD day ∅
  else ∅

/-- Find-and-delete loop of `update` (algorithm.ts lines 139-146): the first
entry whose set contains the card has the card erased from it, and the loop
breaks; later entries are untouched. -/
def removeFirstCard (card : Card) : BucketMap → BucketMap
  | [] => []
  | (k, s) :: rest =>
      if card ∈ s then (k, s.erase card) :: rest
      else (k, s) :: removeFirstCard card rest

/-- The `currentBucket` recorded by the find loop of `update` (lines
139-146): the key of the first entry whose set contains the card; `none`
models the -1 sentinel for a card found in no bucket. -/
def currentBucketOf (m : BucketMap) (card : Card) : Option ℕ :=
  (m.find? (fun p => decide (card ∈ p.2))).map Prod.fst

/-- `newBuckets.get(newBucket)!.add(card)` (algorithm.ts line 166): insert
the card into the set stored under the first occurrence of the key. -/
def addCard (k : ℕ) (card : Card) : BucketMap → BucketMap
  | [] => []
  | (k', s) :: rest =>
      if k' = k then (k', insert card s) :: rest
      else (k', s) :: addCard k card rest

/-- `update` (algorithm.ts lines 125-169).  The copy loop (lines 134-136)
yields an equal map in this value model; the find loop records the current
bucket and erases the card; the destination bucket follows the switch on the
difficulty (lines 150-160); a missing destination key is created with an
empty set (lines 163-165) and the card is inserted there (line 166). -/
def update (buckets : BucketMap) (card : Card) (difficulty : AnswerDifficulty) :
    BucketMap :=
  let currentBucket := currentBucketOf buckets card
  let newBuckets := removeFirstCard card buckets
  let newBucket : ℕ :=
    match difficulty with
    | .Wrong => 0
    | .Hard => match currentBucket with | none => 0 | some c => c
    | .Easy => match currentBucket with | none => 0 | some c => c + 1
  let newBuckets2 :=
    if mapHas newBuckets newBucket then newBuckets
    else newBuckets ++ [(newBucket, ∅)]
  addCard newBucket card newBuckets2

/-- `getHint` (algorithm.ts lines 178-191): an empty back, or an empty or
absent hint, gives the empty string; otherwise `charAt(0)` of the back,
i.e. its first character.  A JS falsy test on a string-or-undefined field is
true exactly for the empty string and for `undefined`. -/
def getHint (card : Flashcard) : String :=
  if card.back = "" then ""
  else
    match card.hint with
    | none => ""
    | some h => if h = "" then "" else card.back.take 1

/-- History entries exactly as typed in the signature of `computeProgress`
(algorithm.ts line 203): a card, a difficulty and a numeric timestamp. -/
structure HistoryEntry where
  card : Card
  difficulty : AnswerDifficulty
  timestamp : ℤ
deriving DecidableEq, Repr

/-- Result record of `computeProgress` (algorithm.ts lines 204-209);
`averageBucket` is a JS number produced by one exact division, modelled as a
rational. -/
structure Progress where
  totalCards : ℕ
  masteredCards : ℕ
  strugglingCards : ℕ
  averageBucket : ℚ
deriving DecidableEq, Repr

/-- `computeProgress` (algorithm.ts lines 201-246): `totalCards` sums the
set sizes (lines 213-214); for every card of every set, the bucket number
added to `totalBucketSum` is the key of the first entry whose set contains
that card (lines 215-223, contributing nothing if no set does);
`masteredCards` sums sizes over keys at least 2 (lines 227-232);
`strugglingCards` is `buckets.get(0)?.size || 0` (line 235); the average
divides the two totals, or is 0 when there are no cards (line 238). -/
def computeProgress (buckets : BucketMap) (history : List HistoryEntry) :
    Progress :=
  let totalCards : ℕ := (buckets.map (fun p => p.2.card)).sum
  let totalBucketSum : ℕ := (buckets.map (fun p =>
      p.2.sum (fun c =>
        ((buckets.find? (fun q => decide (c ∈ q.2))).map Prod.fst).getD 0))).sum
  let masteredCards : ℕ :=
    (buckets.map (fun p => if 2 ≤ p.1 then p.2.card else 0)).sum
  let strugglingCards : ℕ := ((mapGet buckets 0).map Finset.card).getD 0
  let averageBucket : ℚ :=
    if 0 < totalCards then (totalBucketSum : ℚ) / (totalCards : ℚ) else 0
  ⟨totalCards, masteredCards, strugglingCards, averageBucket⟩

/-! ### Runtime model of `update` for an out-of-range outcome

TypeScript enums erase to plain values at runtime, and the `switch` in
`update` (algorithm.ts lines 150-160) has no `default` case: an outcome
outside the three variants leaves `newBucket` undefined, and `undefined` is
then used as a `Map` key in lines 163-166.  The raw model takes the numeric
runtime value of the outcome (declaration order gives Wrong = 0, Hard = 1,
Easy = 2) and uses `Option ℕ` keys, `none` standing for `undefined`. -/

/-- Map with possibly-`undefined` keys, as produced by the missing-default
switch. -/
abbrev RawBucketMap := List (Option ℕ × Finset Card)

/-- Line 166 in the raw model: insert the card into the set stored under the
first occurrence of the (possibly undefined) key. -/
def addCardRaw (k : Option ℕ) (card : Card) : RawBucketMap → RawBucketMap
  | [] => []
  | (k', s) :: rest =>
      if k' = k then (k', insert card s) :: rest
      else (k', s) :: addCardRaw k card rest

/-- `update` on the raw runtime outcome value: identical to `update` except
that the switch is the runtime strict-equality dispatch with no default, so
an unmatched value flows on as the undefined key.  It always returns a map
and never reports an error. -/
def updateRaw (buckets : BucketMap) (card : Card) (difficulty : ℕ) :
    RawBucketMap :=
  let currentBucket := currentBucketOf buckets card
  let newBuckets : RawBucketMap :=
    (removeFirstCard card buckets).map (fun p => (some p.1, p.2))
  let newBucket : Option ℕ :=
    if difficulty = 0 then some 0
    else if difficulty = 1 then
      some (match currentBucket with | none => 0 | some c => c)
    else if difficulty = 2 then
      some (match currentBucket with | none => 0 | some c => c + 1)
    else none
  let newBuckets2 :=
    if (newBuckets.find? (fun p => p.1 == newBucket)).isSome then newBuckets
    else newBuckets ++ [(newBucket, ∅)]
  addCardRaw newBucket card newBuckets2

/-! ### Shared lemmas about the association-list maps -/

theorem mapGet_cons (k0 : ℕ) (s0 : Finset Card) (rest : BucketMap) (k : ℕ) :
    mapGet ((k0, s0) :: rest) k = if k0 = k then some s0 else mapGet rest k := by
  by_cases h : k0 = k <;> simp [mapGet, List.find?_cons, h]

theorem memBucket_cons (k0 : ℕ) (s0 : Finset Card) (rest : BucketMap) (k : ℕ)
    (c : Card) :
    memBucket ((k0, s0) :: rest) k c ↔
      (k = k0 ∧ c ∈ s0) ∨ (k ≠ k0 ∧ memBucket rest k c) := by
  by_cases h : k0 = k <;>
    simp [memBucket, mapGet_cons, h, eq_comm (a := k) (b := k0)]

theorem memBucket_nil (k : ℕ) (c : Card) : ¬ memBucket [] k c := by
  simp [memBucket, mapGet]

theorem mem_of_mapGet_eq_some {m : BucketMap} {k : ℕ} {s : Finset Card}
    (h : mapGet m k = some s) : (k, s) ∈ m := by
  induction m with
  | nil => simp [mapGet] at h
  | cons p rest ih =>
      rcases p with ⟨k0, s0⟩
      rw [mapGet_cons] at h
      by_cases hk : k0 = k
      · simp [hk] at h
        subst hk
        subst h
        exact List.mem_cons_self _ _
      · simp [hk] at h
        exact List.mem_cons_of_mem _ (ih h)

/-! ### C2: practice selection -/

/-- C2: for a dense bucket array and a day, `practice` returns bucket 0 on
day 0 (empty when the array has no index 0), bucket `day` for a positive
in-range day, and the empty set for any day at or past the array length. -/
theorem practice_day_selection (B : List (Finset Card)) (day : ℕ) :
    (day = 0 → practice B day = B.getD 0 ∅) ∧
    (0 < day → day < B.length → practice B day = B.getD day ∅) ∧
    (B.length ≤ day → practice B day = ∅) := by
  refine ⟨fun h => by simp [practice, h], fun h1 h2 => ?_, fun h => ?_⟩
  · have : day ≠ 0 := Nat.pos_iff_ne_zero.mp h1
    simp [practice, this, h2]
  · by_cases h0 : day = 0
    · subst h0
      have hB : B = [] := List.length_eq_zero.mp (Nat.le_zero.mp h)
      subst hB
      simp [practice]
    · have : ¬ day < B.length := by omega
      simp [practice, h0, this]

/-- Witness for C2: a concrete in-range positive day. -/
theorem practice_day_selection_witness :
    practice [(∅ : Finset Card), {1, 2}] 1 = [(∅ : Finset Card), {1, 2}].getD 1 ∅ :=
  (practice_day_selection [(∅ : Finset Card), {1, 2}] 1).2.1 (by decide) (by decide)

/-! ### C9: computeProgress never reads the history -/

/-- C9: the statistics of `computeProgress` depend only on the sparse map;
any two history lists give identical results. -/
theorem computeProgress_ignores_history (S : BucketMap)
    (h1 h2 : List HistoryEntry) :
    computeProgress S h1 = computeProgress S h2 := rfl

/-! ### C10: getHint -/

/-- C10: `getHint` returns the empty string when the back is empty or when
the stored hint is absent or empty, and otherwise the first character of the
back (the answer), never a piece of the stored hint. -/
theorem getHint_first_char_of_back (card : Flashcard) :
    (card.back = "" → getHint card = "") ∧
    (card.hint = none → getHint card = "") ∧
    (card.hint = some "" → getHint card = "") ∧
    (∀ h, card.hint = some h → card.back ≠ "" → h ≠ "" →
      getHint card = card.back.take 1) := by
  refine ⟨fun h => by simp [getHint, h], fun h => ?_, fun h => ?_, ?_⟩
  · by_cases hb : card.back = "" <;> simp [getHint, h, hb]
  · by_cases hb : card.back = "" <;> simp [getHint, h, hb]
  · intro h hh hb hne
    simp [getHint, hb, hh, hne]

/-- Witness for C10: a card with non-empty back and hint. -/
theorem getHint_first_char_of_back_witness :
    getHint ⟨"Q", "Answer", some "H", []⟩ = (String.take "Answer" 1) :=
  (getHint_first_char_of_back ⟨"Q", "Answer", some "H", []⟩).2.2.2 "H" rfl
    (by decide) (by decide)

/-! ### Lemmas about maxKey and the dense array built by toBucketSets -/

theorem le_foldl_max (l : List ℕ) (b : ℕ) : b ≤ l.foldl max b := by
  induction l generalizing b with
  | nil => exact Nat.le_refl b
  | cons a rest ih => exact Nat.le_trans (Nat.le_max_left b a) (ih (max b a))

theorem le_foldl_max_of_mem {l : List ℕ} {a : ℕ} (h : a ∈ l) (b : ℕ) :
    a ≤ l.foldl max b := by
  induction l generalizing b with
  | nil => cases h
  | cons c rest ih =>
      rcases List.mem_cons.mp h with h | h
      · subst h
        exact Nat.le_trans (Nat.le_max_right b a) (le_foldl_max rest (max b a))
      · exact ih h (max b c)

theorem foldl_max_mem (l : List ℕ) (b : ℕ) :
    l.foldl max b = b ∨ l.foldl max b ∈ l := by
  induction l generalizing b with
  | nil => exact Or.inl rfl
  | cons a rest ih =>
      rcases ih (max b a) with h | h
      · rcases max_choice b a with hm | hm
        · left
          simp only [List.foldl_cons]
          rw [h, hm]
        · right
          simp only [List.foldl_cons]
          rw [h, hm]
          exact List.mem_cons_self a rest
      · right
        exact List.mem_cons_of_mem a (by simpa using h)

theorem le_maxKey {S : BucketMap} {p : ℕ × Finset Card} (hp : p ∈ S) :
    p.1 ≤ maxKey S :=
  le_foldl_max_of_mem (List.mem_map_of_mem Prod.fst hp) 0

theorem maxKey_mem {S : BucketMap} (h : S ≠ []) :
    maxKey S ∈ S.map Prod.fst := by
  rcases foldl_max_mem (S.map Prod.fst) 0 with h0 | hmem
  · have hk : maxKey S = 0 := h0
    rcases S with _ | ⟨p, rest⟩
    · exact absurd rfl h
    · have hp : p.1 ≤ maxKey (p :: rest) := le_maxKey (List.mem_cons_self p rest)
      have hp0 : p.1 = 0 := by omega
      rw [hk, ← hp0]
      exact List.mem_map_of_mem Prod.fst (List.mem_cons_self p rest)
  · exact hmem

theorem length_foldl_set (l : BucketMap) (acc : List (Finset Card)) :
    (l.foldl (fun r p => r.set p.1 p.2) acc).length = acc.length := by
  induction l generalizing acc with
  | nil => rfl
  | cons p rest ih => simp [List.foldl_cons, ih]

/-! ### C7: the dense-form length invariant (corrected) -/

/-- C7 counterexample: the sparse map with the single entry `1 ↦ ∅` has no
bucket with cards, yet `toBucketSets` returns an array of length 2, not 0:
the length tracks the largest key present, not the largest occupied
bucket. -/
theorem toBucketSets_length_invariant_cex :
    (∀ s ∈ toBucketSets [(1, (∅ : Finset Card))], s = ∅) ∧
    (toBucketSets [(1, (∅ : Finset Card))]).length ≠ 0 := by
  decide

/-- C7 amended: the length of `toBucketSets S` is (largest key present in
`S`) + 1 — the largest key being characterised as a key of `S` bounding all
keys of `S` — or 0 when `S` has no keys at all, whether or not the sets
carry cards. -/
theorem toBucketSets_length_amended (S : BucketMap) :
    (S = [] → (toBucketSets S).length = 0) ∧
    (S ≠ [] → (toBucketSets S).length = maxKey S + 1 ∧
      maxKey S ∈ S.map Prod.fst ∧ ∀ p ∈ S, p.1 ≤ maxKey S) := by
  constructor
  · rintro rfl
    simp [toBucketSets]
  · intro h
    have hlen : S.length ≠ 0 := fun hc => h (List.length_eq_zero.mp hc)
    refine ⟨?_, maxKey_mem h, fun p hp => le_maxKey hp⟩
    simp only [toBucketSets, hlen, if_false]
    rw [length_foldl_set, List.length_replicate]

/-- Witness for C7 amended: a map with keys 0 and 3 gives length 4. -/
theorem toBucketSets_length_amended_witness :
    (toBucketSets [(0, ({5} : Finset Card)), (3, ∅)]).length =
      maxKey [(0, ({5} : Finset Card)), (3, ∅)] + 1 :=
  ((toBucketSets_length_amended [(0, ({5} : Finset Card)), (3, ∅)]).2
    (by decide)).1

theorem mapGet_eq_none_iff_find? {m : BucketMap} {k : ℕ} :
    mapGet m k = none ↔ m.find? (fun p => p.1 == k) = none := by
  unfold mapGet
  cases m.find? (fun p => p.1 == k) <;> simp

theorem foldl_set_getElem?_of_none (l : BucketMap) (acc : List (Finset Card))
    {i : ℕ} (hf : mapGet l i = none) :
    (l.foldl (fun r p => r.set p.1 p.2) acc)[i]? = acc[i]? := by
  induction l generalizing acc with
  | nil => rfl
  | cons p rest ih =>
      rw [mapGet_cons] at hf
      by_cases hi : p.1 = i
      · simp [hi] at hf
      · simp only [hi, if_false] at hf
        rw [List.foldl_cons, ih (acc.set p.1 p.2) hf, List.getElem?_set_ne hi]

theorem foldl_set_getElem?_of_some (l : BucketMap) (acc : List (Finset Card))
    (hnd : (l.map Prod.fst).Nodup) (hrange : ∀ p ∈ l, p.1 < acc.length)
    {i : ℕ} {s : Finset Card} (hf : mapGet l i = some s) :
    (l.foldl (fun r p => r.set p.1 p.2) acc)[i]? = some s := by
  induction l generalizing acc with
  | nil => simp [mapGet] at hf
  | cons p rest ih =>
      simp only [List.map_cons, List.nodup_cons] at hnd
      obtain ⟨hnotin, hndrest⟩ := hnd
      have hrange' : ∀ q ∈ rest, q.1 < (acc.set p.1 p.2).length := by
        intro q hq
        rw [List.length_set]
        exact hrange q (List.mem_cons_of_mem p hq)
      rw [mapGet_cons] at hf
      by_cases hi : p.1 = i
      · simp only [hi, if_true] at hf
        have hnone : mapGet rest i = none := by
          rw [mapGet_eq_none_iff_find?, List.find?_eq_none]
          intro q hq
          simp only [beq_iff_eq]
          intro hc
          exact hnotin (by rw [hi, ← hc]; exact List.mem_map_of_mem Prod.fst hq)
        rw [List.foldl_cons, foldl_set_getElem?_of_none rest _ hnone, ← hf, hi,
          List.getElem?_set_self (hi ▸ hrange p (List.mem_cons_self p rest))]
      · simp only [hi, if_false] at hf
        rw [List.foldl_cons]
        exact ih _ hndrest hrange' hf

/-! ### C3: toBucketSets entry characterisation -/

/-- C3: for a sparse map with unique keys, `toBucketSets` returns the empty
array on the empty map, and otherwise an array of length (largest key
present) + 1 whose entry at every present key is that key's set and whose
entry at every other index is empty. -/
theorem toBucketSets_entries (S : BucketMap) (hnd : (S.map Prod.fst).Nodup) :
    (S = [] → toBucketSets S = []) ∧
    (S ≠ [] →
      ((toBucketSets S).length = maxKey S + 1 ∧
        maxKey S ∈ S.map Prod.fst ∧ ∀ p ∈ S, p.1 ≤ maxKey S) ∧
      (∀ k s, mapGet S k = some s → (toBucketSets S).getD k ∅ = s) ∧
      (∀ i, i < (toBucketSets S).length → mapGet S i = none →
        (toBucketSets S).getD i ∅ = ∅)) := by
  refine ⟨fun h => by simp [toBucketSets, h], fun h => ?_⟩
  have hlen : S.length ≠ 0 := fun hc => h (List.length_eq_zero.mp hc)
  have hunfold : toBucketSets S =
      S.foldl (fun result p => result.set p.1 p.2)
        (List.replicate (maxKey S + 1) (∅ : Finset Card)) := by
    simp [toBucketSets, hlen]
  have hL : (toBucketSets S).length = maxKey S + 1 := by
    rw [hunfold, length_foldl_set, List.length_replicate]
  have hrange : ∀ p ∈ S, p.1 < (List.replicate (maxKey S + 1) (∅ : Finset Card)).length := by
    intro p hp
    rw [List.length_replicate]
    exact Nat.lt_succ_of_le (le_maxKey hp)
  refine ⟨⟨hL, maxKey_mem h, fun p hp => le_maxKey hp⟩, ?_, ?_⟩
  · intro k s hk
    have hkle : k < maxKey S + 1 := by
      have := le_maxKey (mem_of_mapGet_eq_some hk)
      omega
    rw [List.getD_eq_getElem?_getD, hunfold,
      foldl_set_getElem?_of_some S _ hnd hrange hk]
    rfl
  · intro i hi hnone
    rw [List.getD_eq_getElem?_getD, hunfold, foldl_set_getElem?_of_none S _ hnone,
      List.getElem?_replicate]
    rw [hL] at hi
    simp [hi]

/-- Witness for C3: the gap map `{0 ↦ {1}, 2 ↦ {2}}`; the entry at present
key 2 is that key's set. -/
theorem toBucketSets_entries_witness :
    (toBucketSets [(0, ({1} : Finset Card)), (2, {2})]).getD 2 ∅ = {2} :=
  ((toBucketSets_entries [(0, ({1} : Finset Card)), (2, {2})] (by decide)).2
    (by decide)).2.1 2 {2} (by decide)

/-! ### Lemmas for the update theorem -/

theorem countP_cons_le_one {α : Type _} {p : α → Bool} {b : α} {l : List α}
    (hc : (b :: l).countP p ≤ 1) :
    (p b = true → ∀ a ∈ l, ¬ p a = true) ∧ l.countP p ≤ 1 := by
  rw [List.countP_cons] at hc
  constructor
  · intro hb a ha hpa
    rw [if_pos hb] at hc
    have h1 : 0 < l.countP p := List.countP_pos_iff.mpr ⟨a, ha, hpa⟩
    omega
  · by_cases hb : p b = true
    · rw [if_pos hb] at hc
      omega
    · rw [if_neg hb] at hc
      omega

theorem find?_eq_of_countP_le_one {α : Type _} (p : α → Bool) (l : List α)
    (hc : l.countP p ≤ 1) {a : α} (ha : a ∈ l) (hpa : p a = true) :
    l.find? p = some a := by
  induction l with
  | nil => cases ha
  | cons b rest ih =>
      obtain ⟨himp, hrest⟩ := countP_cons_le_one hc
      by_cases hb : p b = true
      · rcases List.mem_cons.mp ha with rfl | hmem
        · exact List.find?_cons_of_pos rest hb
        · exact absurd hpa (himp hb a hmem)
      · rcases List.mem_cons.mp ha with rfl | hmem
        · exact absurd hpa hb
        · rw [List.find?_cons_of_neg rest hb]
          exact ih hrest hmem

theorem map_fst_removeFirstCard (card : Card) (m : BucketMap) :
    (removeFirstCard card m).map Prod.fst = m.map Prod.fst := by
  induction m with
  | nil => rfl
  | cons p rest ih =>
      rcases p with ⟨k, s⟩
      by_cases h : card ∈ s <;> simp [removeFirstCard, h, ih]

theorem mapHas_cons (k1 : ℕ) (s : Finset Card) (rest : BucketMap) (k : ℕ) :
    mapHas ((k1, s) :: rest) k = if k1 = k then true else mapHas rest k := by
  by_cases h : k1 = k <;> simp [mapHas, List.find?_cons, h]

theorem mapHas_iff_mem_keys {m : BucketMap} {k : ℕ} :
    mapHas m k = true ↔ k ∈ m.map Prod.fst := by
  induction m with
  | nil => simp [mapHas]
  | cons p rest ih =>
      rcases p with ⟨k1, s⟩
      rw [mapHas_cons]
      by_cases h : k1 = k <;> simp [h, ih, Ne.symm]

theorem removeFirstCard_not_mem (card : Card) (m : BucketMap)
    (honce : m.countP (fun p => decide (card ∈ p.2)) ≤ 1) (k : ℕ) :
    ¬ memBucket (removeFirstCard card m) k card := by
  induction m with
  | nil => simpa [removeFirstCard] using memBucket_nil k card
  | cons p rest ih =>
      rcases p with ⟨k0, s0⟩
      obtain ⟨himp, hrest⟩ := countP_cons_le_one honce
      by_cases hc : card ∈ s0
      · simp only [removeFirstCard, if_pos hc]
        have h0 : ∀ q ∈ rest, card ∉ q.2 := by
          intro q hq hin
          exact himp (decide_eq_true hc) q hq (decide_eq_true hin)
        intro hmem
        rcases (memBucket_cons k0 (s0.erase card) rest k card).mp hmem with
          ⟨hk, hin⟩ | ⟨hk, hmem2⟩
        · exact Finset.not_mem_erase card s0 hin
        · obtain ⟨s, hs, hin⟩ := hmem2
          exact h0 (k, s) (mem_of_mapGet_eq_some hs) hin
      · simp only [removeFirstCard, if_neg hc]
        intro hmem
        rcases (memBucket_cons k0 s0 (removeFirstCard card rest) k card).mp hmem with
          ⟨hk, hin⟩ | ⟨hk, hmem2⟩
        · exact hc hin
        · exact ih hrest hmem2

theorem mapGet_of_mem_nodup {m : BucketMap} (hnd : (m.map Prod.fst).Nodup)
    {p : ℕ × Finset Card} (hp : p ∈ m) : mapGet m p.1 = some p.2 := by
  induction m with
  | nil => cases hp
  | cons q rest ih =>
      rcases q with ⟨k1, s1⟩
      simp only [List.map_cons, List.nodup_cons] at hnd
      rcases List.mem_cons.mp hp with rfl | hmem
      · rw [mapGet_cons]
        simp
      · rw [mapGet_cons]
        have hne : k1 ≠ p.1 := fun hcc =>
          hnd.1 (hcc ▸ List.mem_map_of_mem Prod.fst hmem)
        simp only [hne, if_false]
        exact ih hnd.2 hmem

theorem currentBucketOf_eq_some_iff {S : BucketMap} {card : Card}
    (hnd : (S.map Prod.fst).Nodup)
    (honce : S.countP (fun p => decide (card ∈ p.2)) ≤ 1) (j : ℕ) :
    currentBucketOf S card = some j ↔ memBucket S j card := by
  constructor
  · intro h
    obtain ⟨q, hq, hjq⟩ : ∃ q, S.find? (fun p => decide (card ∈ p.2)) = some q ∧ q.1 = j := by
      unfold currentBucketOf at h
      cases hf : S.find? (fun p => decide (card ∈ p.2)) with
      | none => rw [hf] at h; simp at h
      | some q => rw [hf] at h; simp at h; exact ⟨q, rfl, h⟩
    have hmem := List.mem_of_find?_eq_some hq
    have hcard : card ∈ q.2 := by simpa using List.find?_some hq
    exact ⟨q.2, hjq ▸ mapGet_of_mem_nodup hnd hmem, hcard⟩
  · rintro ⟨s, hs, hin⟩
    have hmem := mem_of_mapGet_eq_some hs
    have := find?_eq_of_countP_le_one (fun p => decide (card ∈ p.2)) S honce
      hmem (by simpa using hin)
    simp [currentBucketOf, this]

theorem addCard_cons (k0 : ℕ) (card : Card) (k1 : ℕ) (s : Finset Card)
    (rest : BucketMap) :
    addCard k0 card ((k1, s) :: rest) =
      if k1 = k0 then (k1, insert card s) :: rest
      else (k1, s) :: addCard k0 card rest := rfl

theorem memBucket_addCard (k0 : ℕ) (card : Card) (m : BucketMap) (k : ℕ) :
    memBucket (addCard k0 card m) k card ↔
      (k = k0 ∧ mapHas m k0 = true) ∨ memBucket m k card := by
  induction m with
  | nil =>
      simp only [addCard]
      simp [memBucket, mapGet, mapHas]
  | cons p rest ih =>
      rcases p with ⟨k1, s⟩
      rw [addCard_cons, mapHas_cons]
      by_cases h10 : k1 = k0
      · subst h10
        rw [if_pos rfl, if_pos rfl, memBucket_cons, memBucket_cons]
        by_cases hk : k = k1 <;> simp [hk, Finset.mem_insert]
      · rw [if_neg h10, if_neg h10, memBucket_cons, memBucket_cons, ih]
        constructor
        · rintro (⟨hk, hin⟩ | ⟨hk, h | h⟩)
          · exact Or.inr (Or.inl ⟨hk, hin⟩)
          · exact Or.inl h
          · exact Or.inr (Or.inr ⟨hk, h⟩)
        · rintro (⟨hk, hh⟩ | ⟨hk, hin⟩ | ⟨hk, h⟩)
          · exact Or.inr ⟨fun hc => h10 (by rw [← hc, hk]), Or.inl ⟨hk, hh⟩⟩
          · exact Or.inl ⟨hk, hin⟩
          · exact Or.inr ⟨hk, Or.inr h⟩

theorem memBucket_append_empty (m : BucketMap) (k0 k : ℕ) (c : Card) :
    memBucket (m ++ [(k0, ∅)]) k c ↔ memBucket m k c := by
  induction m with
  | nil =>
      simp only [List.nil_append]
      rw [show memBucket [(k0, (∅ : Finset Card))] k c ↔ _ from
        memBucket_cons k0 ∅ [] k c]
      simp [memBucket_nil]
  | cons p rest ih =>
      rcases p with ⟨k1, s⟩
      simp only [List.cons_append]
      rw [memBucket_cons, memBucket_cons, ih]

theorem mapHas_append_self (m : BucketMap) (k0 : ℕ) (s : Finset Card) :
    mapHas (m ++ [(k0, s)]) k0 = true := by
  rw [mapHas_iff_mem_keys]
  simp

theorem memBucket_update_core (S1 : BucketMap) (card : Card) (nb : ℕ)
    (hnone : ∀ k, ¬ memBucket S1 k card) (k : ℕ) :
    memBucket (addCard nb card
      (if mapHas S1 nb then S1 else S1 ++ [(nb, ∅)])) k card ↔ k = nb := by
  by_cases hh : mapHas S1 nb = true
  · rw [if_pos hh, memBucket_addCard]
    simp [hh, hnone k]
  · rw [if_neg (by simpa using hh), memBucket_addCard]
    rw [mapHas_append_self, memBucket_append_empty]
    simp [hnone k]

/-! ### C1: update re-files the card -/

/-- C1: for a sparse map with unique keys in which the card sits in at most
one bucket, `update` removes the card from that bucket and files it in
exactly one destination: bucket 0 for Wrong; the prior bucket, or 0 when the
card was in no bucket, for Hard; the prior bucket plus one, or 0, for Easy.
`currentBucketOf S card` is exactly the bucket of `S` holding the card. -/
theorem update_refiles_card (S : BucketMap) (card : Card) (d : AnswerDifficulty)
    (hnd : (S.map Prod.fst).Nodup)
    (honce : S.countP (fun p => decide (card ∈ p.2)) ≤ 1) :
    (∀ j, currentBucketOf S card = some j ↔ memBucket S j card) ∧
    (∀ k, memBucket (update S card d) k card ↔
      k = (match d with
        | .Wrong => 0
        | .Hard => match currentBucketOf S card with | none => 0 | some c => c
        | .Easy => match currentBucketOf S card with | none => 0 | some c => c + 1)) := by
  refine ⟨fun j => currentBucketOf_eq_some_iff hnd honce j, fun k => ?_⟩
  have hnone : ∀ k2, ¬ memBucket (removeFirstCard card S) k2 card :=
    removeFirstCard_not_mem card S honce
  rcases d with _ | _ | _ <;>
    simp only [update] <;>
    exact memBucket_update_core (removeFirstCard card S) card _ hnone k

/-- Witness for C1: a card in bucket 1 answered Easy lands exactly in
bucket 2. -/
theorem update_refiles_card_witness :
    memBucket (update [(0, (∅ : Finset Card)), (1, {7})] 7 .Easy) 2 7 :=
  (((update_refiles_card [(0, (∅ : Finset Card)), (1, {7})] 7 .Easy
    (by decide) (by decide)).2 2).mpr (by decide))

/-! ### C5: behaviour of update on an invalid outcome -/

/-- C5 evaluation: with the out-of-range runtime outcome 3, `update` does
not fail: it returns a bucket map that silently files the card under the
undefined key, here for a card previously in bucket 1. -/
theorem updateRaw_invalid_outcome_returns_map :
    updateRaw [(1, ({7} : Finset Card))] 7 3 = [(some 1, ∅), (none, {7})] := by
  decide

/-! ### C4: computeProgress statistics -/

theorem find?_scan_eq_self {S : BucketMap}
    (hdisj : S.Pairwise (fun p q => p.2 ∩ q.2 = ∅)) {p : ℕ × Finset Card}
    (hp : p ∈ S) {c : Card} (hc : c ∈ p.2) :
    S.find? (fun q => decide (c ∈ q.2)) = some p := by
  induction S with
  | nil => cases hp
  | cons q rest ih =>
      rw [List.pairwise_cons] at hdisj
      rcases List.mem_cons.mp hp with rfl | hmem
      · exact List.find?_cons_of_pos rest (decide_eq_true hc)
      · have hcq : c ∉ q.2 := by
          intro hin
          have hd := hdisj.1 p hmem
          have : c ∈ q.2 ∩ p.2 := Finset.mem_inter.mpr ⟨hin, hc⟩
          rw [hd] at this
          exact absurd this (Finset.not_mem_empty c)
        rw [List.find?_cons_of_neg rest (by simpa using hcq)]
        exact ih hdisj.2 hmem

theorem totalBucketSum_eq (S : BucketMap)
    (hdisj : S.Pairwise (fun p q => p.2 ∩ q.2 = ∅)) :
    (S.map (fun p => p.2.sum (fun c =>
        ((S.find? (fun q => decide (c ∈ q.2))).map Prod.fst).getD 0))).sum
      = (S.map (fun p => p.2.sum (fun _ => p.1))).sum := by
  have hmap : ∀ p ∈ S,
      p.2.sum (fun c =>
        ((S.find? (fun q => decide (c ∈ q.2))).map Prod.fst).getD 0)
        = p.2.sum (fun _ => p.1) := by
    intro p hp
    refine Finset.sum_congr rfl (fun c hc => ?_)
    rw [find?_scan_eq_self hdisj hp hc]
    rfl
  rw [List.map_congr_left hmap]

/-- C4: on a sparse map whose buckets are pairwise disjoint (each card in at
most one bucket), `computeProgress` returns the total number of cards, the
number in buckets numbered at least 2, the size of bucket 0 (0 when key 0 is
absent), and the average bucket — the sum over all cards of their bucket
number, divided by the total — with average exactly 0 when there are no
cards; the history plays no role. -/
theorem computeProgress_stats (S : BucketMap) (hist : List HistoryEntry)
    (hdisj : S.Pairwise (fun p q => p.2 ∩ q.2 = ∅)) :
    (computeProgress S hist).totalCards = (S.map (fun p => p.2.card)).sum ∧
    (computeProgress S hist).masteredCards
      = (S.map (fun p => if 2 ≤ p.1 then p.2.card else 0)).sum ∧
    (∀ s, mapGet S 0 = some s → (computeProgress S hist).strugglingCards = s.card) ∧
    (mapGet S 0 = none → (computeProgress S hist).strugglingCards = 0) ∧
    ((S.map (fun p => p.2.card)).sum = 0 →
      (computeProgress S hist).averageBucket = 0) ∧
    (0 < (S.map (fun p => p.2.card)).sum →
      (computeProgress S hist).averageBucket
        = (((S.map (fun p => p.2.sum (fun _ => p.1))).sum : ℕ) : ℚ)
            / (((S.map (fun p => p.2.card)).sum : ℕ) : ℚ)) := by
  refine ⟨rfl, rfl, ?_, ?_, ?_, ?_⟩
  · intro s hs
    simp [computeProgress, hs]
  · intro hs
    simp [computeProgress, hs]
  · intro h0
    simp [computeProgress, h0]
  · intro hpos
    have hne : ¬ (S.map (fun p => p.2.card)).sum = 0 := by omega
    simp only [computeProgress, hpos, if_pos]
    rw [totalBucketSum_eq S hdisj]

/-- Witness for C4: three cards in buckets 0, 1, 2 give average bucket
(0 + 1 + 2) / 3. -/
theorem computeProgress_stats_witness :
    (computeProgress [(0, ({1} : Finset Card)), (1, {2}), (2, {3})] []).averageBucket
      = ((([(0, ({1} : Finset Card)), (1, {2}), (2, {3})].map
          (fun p => p.2.sum (fun _ => p.1))).sum : ℕ) : ℚ)
        / ((([(0, ({1} : Finset Card)), (1, {2}), (2, {3})].map
          (fun p => p.2.card)).sum : ℕ) : ℚ) :=
  (computeProgress_stats [(0, ({1} : Finset Card)), (1, {2}), (2, {3})] []
    (by decide)).2.2.2.2.2 (by decide)

/-! ### Lemmas characterising the getBucketRange scan -/

/-- First index of a non-empty set in a dense array. -/
def firstOcc : List (Finset Card) → Option ℕ
  | [] => none
  | s :: rest => if 0 < s.card then some 0 else (firstOcc rest).map (· + 1)

/-- Last index of a non-empty set in a dense array. -/
def lastOcc : List (Finset Card) → Option ℕ
  | [] => none
  | s :: rest =>
      match lastOcc rest with
      | some j => some (j + 1)
      | none => if 0 < s.card then some 0 else none

/-- Index `j` of the dense array holds a set with cards. -/
def occupied (B : List (Finset Card)) (j : ℕ) : Prop :=
  ∃ s, B[j]? = some s ∧ s ≠ ∅

theorem occupied_cons_zero (s : Finset Card) (rest : List (Finset Card)) :
    occupied (s :: rest) 0 ↔ s ≠ ∅ := by
  simp [occupied]

theorem occupied_cons_succ (s : Finset Card) (rest : List (Finset Card)) (l : ℕ) :
    occupied (s :: rest) (l + 1) ↔ occupied rest l := by
  simp [occupied]

theorem firstOcc_eq_none_iff (B : List (Finset Card)) :
    firstOcc B = none ↔ ∀ s ∈ B, s = ∅ := by
  induction B with
  | nil => simp [firstOcc]
  | cons s rest ih =>
      by_cases h : 0 < s.card
      · have : s ≠ ∅ := by
          intro hc
          rw [hc] at h
          simp at h
        simp [firstOcc, h, this]
      · have hs : s = ∅ := by
          rw [← Finset.card_eq_zero]
          omega
        simp [firstOcc, h, hs, ih]

theorem lastOcc_eq_none_iff (B : List (Finset Card)) :
    lastOcc B = none ↔ ∀ s ∈ B, s = ∅ := by
  induction B with
  | nil => simp [lastOcc]
  | cons s rest ih =>
      cases hl : lastOcc rest with
      | some j =>
          simp only [lastOcc, hl]
          constructor
          · intro hc
            cases hc
          · intro hall
            have hnone := ih.mpr (fun s2 hs2 => hall s2 (List.mem_cons_of_mem s hs2))
            rw [hnone] at hl
            cases hl
      | none =>
          by_cases h : 0 < s.card
          · have : s ≠ ∅ := by
              intro hc
              rw [hc] at h
              simp at h
            simp [lastOcc, hl, h, this]
          · have hs : s = ∅ := by
              rw [← Finset.card_eq_zero]
              omega
            simp only [lastOcc, hl, if_neg h]
            simp [hs]
            exact ih.mp hl

theorem firstOcc_spec {B : List (Finset Card)} {j : ℕ}
    (h : firstOcc B = some j) : occupied B j ∧ ∀ l, occupied B l → j ≤ l := by
  induction B generalizing j with
  | nil => simp [firstOcc] at h
  | cons s rest ih =>
      by_cases hs : 0 < s.card
      · simp only [firstOcc, if_pos hs] at h
        obtain rfl : (0 : ℕ) = j := by simpa using h
        refine ⟨(occupied_cons_zero s rest).mpr ?_, fun l _ => Nat.zero_le l⟩
        intro hc
        rw [hc] at hs
        simp at hs
      · simp only [firstOcc, if_neg hs] at h
        obtain ⟨j2, hj2, rfl⟩ := Option.map_eq_some'.mp h
        obtain ⟨hocc, hmin⟩ := ih hj2
        refine ⟨(occupied_cons_succ s rest j2).mpr hocc, fun l hl => ?_⟩
        cases l with
        | zero =>
            have := (occupied_cons_zero s rest).mp hl
            have : s.card ≠ 0 := fun hc => this (Finset.card_eq_zero.mp hc)
            omega
        | succ l2 =>
            have := hmin l2 ((occupied_cons_succ s rest l2).mp hl)
            omega

theorem lastOcc_spec {B : List (Finset Card)} {j : ℕ}
    (h : lastOcc B = some j) : occupied B j ∧ ∀ l, occupied B l → l ≤ j := by
  induction B generalizing j with
  | nil => simp [lastOcc] at h
  | cons s rest ih =>
      cases hl : lastOcc rest with
      | some j2 =>
          simp only [lastOcc, hl] at h
          obtain rfl : j2 + 1 = j := by simpa using h
          obtain ⟨hocc, hmax⟩ := ih hl
          refine ⟨(occupied_cons_succ s rest j2).mpr hocc, fun l hll => ?_⟩
          cases l with
          | zero => omega
          | succ l2 =>
              have := hmax l2 ((occupied_cons_succ s rest l2).mp hll)
              omega
      | none =>
        simp only [lastOcc, hl] at h
        by_cases hs : 0 < s.card
        · rw [if_pos hs] at h
          obtain rfl : (0 : ℕ) = j := by simpa using h
          refine ⟨(occupied_cons_zero s rest).mpr ?_, fun l hll => ?_⟩
          · intro hc
            rw [hc] at hs
            simp at hs
          · cases l with
            | zero => omega
            | succ l2 =>
                obtain ⟨s2, hs2, hne⟩ := (occupied_cons_succ s rest l2).mp hll
                have := (lastOcc_eq_none_iff rest).mp hl s2 (List.getElem?_mem hs2)
                exact absurd this hne
        · rw [if_neg hs] at h
          cases h

theorem bucketRangeLoop_after_found (B : List (Finset Card)) :
    ∀ (i : ℕ) (mn mx : ℤ), mn ≠ -1 →
      bucketRangeLoop B i (mn, mx) =
        (mn, match lastOcc B with
             | some j => (((i + j : ℕ) : ℤ))
             | none => mx) := by
  induction B with
  | nil => intro i mn mx hmn; simp [bucketRangeLoop, lastOcc]
  | cons s rest ih =>
      intro i mn mx hmn
      by_cases hs : 0 < s.card
      · simp only [bucketRangeLoop, if_pos hs, if_neg hmn]
        rw [ih (i + 1) mn (i : ℤ) hmn]
        cases hl : lastOcc rest with
        | some j => simp [lastOcc, hl]; push_cast; ring
        | none => simp [lastOcc, hl, hs]
      · simp only [bucketRangeLoop, if_neg hs]
        rw [ih (i + 1) mn mx hmn]
        cases hl : lastOcc rest with
        | some j => simp [lastOcc, hl]; push_cast; ring
        | none => simp [lastOcc, hl, hs]

theorem bucketRangeLoop_from_start (B : List (Finset Card)) :
    ∀ (i : ℕ) (mx : ℤ),
      bucketRangeLoop B i (-1, mx) =
        match firstOcc B, lastOcc B with
        | some j, some j2 => (((i + j : ℕ) : ℤ), ((i + j2 : ℕ) : ℤ))
        | _, _ => (-1, mx) := by
  induction B with
  | nil => intro i mx; simp [bucketRangeLoop, firstOcc, lastOcc]
  | cons s rest ih =>
      intro i mx
      by_cases hs : 0 < s.card
      · simp only [bucketRangeLoop, if_pos hs, if_pos rfl, if_true]
        rw [bucketRangeLoop_after_found rest (i + 1) (i : ℤ) (i : ℤ)
          (by omega)]
        cases hl : lastOcc rest with
        | some j =>
            simp [firstOcc, lastOcc, hs, hl]
            push_cast
            ring
        | none => simp [firstOcc, lastOcc, hs, hl]
      · simp only [bucketRangeLoop, if_neg hs]
        rw [ih (i + 1) mx]
        cases hf : firstOcc rest with
        | some j =>
            cases hl : lastOcc rest with
            | some j2 =>
                simp [firstOcc, lastOcc, hs, hf, hl]
                constructor
                · push_cast; ring
                · push_cast; ring
            | none => simp [firstOcc, lastOcc, hs, hf, hl]
        | none =>
            cases hl : lastOcc rest with
            | some j2 => simp [firstOcc, lastOcc, hs, hf, hl]
            | none => simp [firstOcc, lastOcc, hs, hf, hl]

theorem getBucketRange_eq_occ (B : List (Finset Card)) :
    getBucketRange B =
      match firstOcc B, lastOcc B with
      | some j, some j2 => some ((j : ℤ), (j2 : ℤ))
      | _, _ => none := by
  simp only [getBucketRange]
  rw [bucketRangeLoop_from_start B 0 (-1)]
  cases hf : firstOcc B with
  | some j =>
      cases hl : lastOcc B with
      | some j2 =>
          have h1 : ¬ (((0 + j : ℕ) : ℤ) = -1) := by omega
          simp [h1]
      | none => simp
  | none => simp

theorem toBucketSets_getElem?_some {S : BucketMap}
    (hnd : (S.map Prod.fst).Nodup) {k : ℕ} {s : Finset Card}
    (h : mapGet S k = some s) : (toBucketSets S)[k]? = some s := by
  have hne : S ≠ [] := by
    rintro rfl
    simp [mapGet] at h
  have hlen : S.length ≠ 0 := fun hc => hne (List.length_eq_zero.mp hc)
  have hrange : ∀ p ∈ S,
      p.1 < (List.replicate (maxKey S + 1) (∅ : Finset Card)).length := by
    intro p hp
    rw [List.length_replicate]
    exact Nat.lt_succ_of_le (le_maxKey hp)
  simp only [toBucketSets, hlen, if_false]
  exact foldl_set_getElem?_of_some S _ hnd hrange h

theorem toBucketSets_getElem?_none {S : BucketMap} {k : ℕ}
    (h : mapGet S k = none) (hk : k < (toBucketSets S).length) :
    (toBucketSets S)[k]? = some ∅ := by
  have hne : S ≠ [] := by
    rintro rfl
    simp [toBucketSets] at hk
  have hlen : S.length ≠ 0 := fun hc => hne (List.length_eq_zero.mp hc)
  have hk2 : k < maxKey S + 1 := by
    simpa [toBucketSets, hlen, length_foldl_set] using hk
  simp only [toBucketSets, hlen, if_false]
  rw [foldl_set_getElem?_of_none S _ h, List.getElem?_replicate, if_pos hk2]

theorem occupied_toBucketSets {S : BucketMap}
    (hnd : (S.map Prod.fst).Nodup) (k : ℕ) :
    occupied (toBucketSets S) k ↔ ∃ p ∈ S, p.1 = k ∧ p.2 ≠ ∅ := by
  constructor
  · rintro ⟨s, hget, hne⟩
    cases hmg : mapGet S k with
    | some s2 =>
        have := toBucketSets_getElem?_some hnd hmg
        rw [this] at hget
        obtain rfl : s2 = s := by simpa using hget
        exact ⟨(k, s2), mem_of_mapGet_eq_some hmg, rfl, hne⟩
    | none =>
        have hk : k < (toBucketSets S).length := by
          rcases List.getElem?_eq_some_iff.mp hget with ⟨h1, _⟩
          exact h1
        have := toBucketSets_getElem?_none hmg hk
        rw [this] at hget
        obtain rfl : (∅ : Finset Card) = s := by simpa using hget
        exact absurd rfl hne
  · rintro ⟨p, hp, rfl, hne⟩
    have hmg : mapGet S p.1 = some p.2 := mapGet_of_mem_nodup hnd hp
    exact ⟨p.2, toBucketSets_getElem?_some hnd hmg, hne⟩

theorem all_empty_toBucketSets {S : BucketMap}
    (hnd : (S.map Prod.fst).Nodup) :
    (∀ s ∈ toBucketSets S, s = ∅) ↔ ∀ p ∈ S, p.2 = ∅ := by
  constructor
  · intro hall p hp
    exact hall p.2 (List.getElem?_mem
      (toBucketSets_getElem?_some hnd (mapGet_of_mem_nodup hnd hp)))
  · intro hall s hs
    by_contra hne
    obtain ⟨i, hi, hget⟩ := List.getElem_of_mem hs
    have hocc : occupied (toBucketSets S) i :=
      ⟨s, List.getElem?_eq_some_iff.mpr ⟨hi, hget⟩, hne⟩
    obtain ⟨p, hp, _, hpne⟩ := (occupied_toBucketSets hnd i).mp hocc
    exact hpne (hall p hp)

/-! ### C8: bucket range of the dense form -/

/-- C8: `getBucketRange` after `toBucketSets` returns `none` exactly when no
set of the sparse map (with unique keys) has cards, and otherwise the pair
of the smallest and largest keys whose sets are non-empty: both bounds are
such keys, and every key with a non-empty set lies between them. -/
theorem bucketRange_roundtrip (S : BucketMap)
    (hnd : (S.map Prod.fst).Nodup) :
    (getBucketRange (toBucketSets S) = none ↔ ∀ p ∈ S, p.2 = ∅) ∧
    (∀ mn mx : ℤ, getBucketRange (toBucketSets S) = some (mn, mx) →
      (∃ p ∈ S, (p.1 : ℤ) = mn ∧ p.2 ≠ ∅) ∧
      (∃ p ∈ S, (p.1 : ℤ) = mx ∧ p.2 ≠ ∅) ∧
      (∀ p ∈ S, p.2 ≠ ∅ → mn ≤ (p.1 : ℤ) ∧ (p.1 : ℤ) ≤ mx)) := by
  rw [getBucketRange_eq_occ]
  cases hf : firstOcc (toBucketSets S) with
  | none =>
      have hempty : ∀ s ∈ toBucketSets S, s = ∅ :=
        (firstOcc_eq_none_iff (toBucketSets S)).mp hf
      have hl : lastOcc (toBucketSets S) = none :=
        (lastOcc_eq_none_iff (toBucketSets S)).mpr hempty
      rw [hl]
      refine ⟨?_, fun mn mx h => by cases h⟩
      simp only [true_iff]
      exact (all_empty_toBucketSets hnd).mp hempty
  | some j =>
      cases hl : lastOcc (toBucketSets S) with
      | none =>
          have hempty : ∀ s ∈ toBucketSets S, s = ∅ :=
            (lastOcc_eq_none_iff (toBucketSets S)).mp hl
          have : firstOcc (toBucketSets S) = none :=
            (firstOcc_eq_none_iff (toBucketSets S)).mpr hempty
          rw [this] at hf
          cases hf
      | some j2 =>
          obtain ⟨hoccj, hmin⟩ := firstOcc_spec hf
          obtain ⟨hoccj2, hmax⟩ := lastOcc_spec hl
          constructor
          · constructor
            · intro hc
              cases hc
            · intro hall
              obtain ⟨p, hp, _, hpne⟩ := (occupied_toBucketSets hnd j).mp hoccj
              exact absurd (hall p hp) hpne
          · intro mn mx h
            obtain ⟨h1, h2⟩ : (j : ℤ) = mn ∧ (j2 : ℤ) = mx := by
              have hpair := Option.some.inj h
              exact ⟨congrArg Prod.fst hpair, congrArg Prod.snd hpair⟩
            subst h1
            subst h2
            refine ⟨?_, ?_, ?_⟩
            · obtain ⟨p, hp, hpk, hpne⟩ := (occupied_toBucketSets hnd j).mp hoccj
              exact ⟨p, hp, by rw [hpk], hpne⟩
            · obtain ⟨p, hp, hpk, hpne⟩ := (occupied_toBucketSets hnd j2).mp hoccj2
              exact ⟨p, hp, by rw [hpk], hpne⟩
            · intro p hp hpne
              have hocc : occupied (toBucketSets S) p.1 :=
                (occupied_toBucketSets hnd p.1).mpr ⟨p, hp, rfl, hpne⟩
              exact ⟨by exact_mod_cast hmin p.1 hocc,
                by exact_mod_cast hmax p.1 hocc⟩

/-- Witness for C8: keys 1 and 3 occupied gives the range (1, 3). -/
theorem bucketRange_roundtrip_witness :
    ∃ p ∈ ([(1, ({5} : Finset Card)), (3, {6})] : BucketMap),
      (p.1 : ℤ) = 1 ∧ p.2 ≠ ∅ :=
  (((bucketRange_roundtrip [(1, ({5} : Finset Card)), (3, {6})]
    (by decide)).2 1 3) (by decide)).1


/-! ### Heap model of update, for the frame property (C6)

JS `Set` objects are mutable and aliased; the non-mutation contract of
`update` is about object identity, so this model makes the heap explicit:
a store of set values indexed by address, and bucket maps holding addresses.
`update` is re-traced on this model: the copy loop allocates a fresh copy of
every set (line 135, `new Set(cardSet)`), the find loop deletes in place
from the first copy containing the card (lines 139-146), and the card is
added in place to the set at the destination key (lines 163-166). -/

/-- Heap of mutable set objects; an address is an index into the list. -/
structure Store where
  sets : List (Finset Card)

/-- Dereference an address (unused addresses read as the empty set). -/
def Store.read (st : Store) (a : ℕ) : Finset Card :=
  st.sets.getD a ∅

/-- Overwrite the object at an address. -/
def Store.write (st : Store) (a : ℕ) (s : Finset Card) : Store :=
  ⟨st.sets.set a s⟩

/-- Allocate a new object, returning its fresh address. -/
def Store.alloc (st : Store) (s : Finset Card) : Store × ℕ :=
  (⟨st.sets ++ [s]⟩, st.sets.length)

/-- A sparse bucket map as the caller holds it: keys to set addresses. -/
abbrev BucketMapRef := List (ℕ × ℕ)

/-- Copy loop of `update` (lines 134-136): every entry of the new map gets a
freshly allocated copy of the original set. -/
def copyBuckets (st : Store) : BucketMapRef → Store × BucketMapRef
  | [] => (st, [])
  | (k, a) :: rest =>
      let al := st.alloc (st.read a)
      let q := copyBuckets al.1 rest
      (q.1, (k, al.2) :: q.2)

/-- Find loop of `update` (lines 139-146) on the heap: erase the card, in
place, from the set of the first entry containing it, recording that key. -/
def findAndDelete (st : Store) (card : Card) : BucketMapRef → Store × Option ℕ
  | [] => (st, none)
  | (k, a) :: rest =>
      if card ∈ st.read a then (st.write a ((st.read a).erase card), some k)
      else findAndDelete st card rest

/-- Lines 163-166 on the heap: create the destination bucket with a freshly
allocated empty set when its key is absent, then insert the card, in place,
into the set at the destination key. -/
def addCardRef (st : Store) (m : BucketMapRef) (nb : ℕ) (card : Card) :
    Store × BucketMapRef :=
  let g :=
    if (m.find? (fun p => p.1 == nb)).isSome then (st, m)
    else
      let al := st.alloc ∅
      (al.1, m ++ [(nb, al.2)])
  match g.2.find? (fun p => p.1 == nb) with
  | some p => (g.1.write p.2 (insert card (g.1.read p.2)), g.2)
  | none => g

/-- `update` (lines 125-169) on the heap model. -/
def updateRef (st : Store) (buckets : BucketMapRef) (card : Card)
    (difficulty : AnswerDifficulty) : Store × BucketMapRef :=
  let c := copyBuckets st buckets
  let f := findAndDelete c.1 card c.2
  let newBucket : ℕ :=
    match difficulty with
    | .Wrong => 0
    | .Hard => match f.2 with | none => 0 | some k => k
    | .Easy => match f.2 with | none => 0 | some k => k + 1
  addCardRef f.1 c.2 newBucket card

theorem copyBuckets_sets_append (st : Store) (l : BucketMapRef) :
    ∃ ext, (copyBuckets st l).1.sets = st.sets ++ ext := by
  induction l generalizing st with
  | nil => exact ⟨[], by simp [copyBuckets]⟩
  | cons p rest ih =>
      rcases p with ⟨k, a⟩
      obtain ⟨ext, hext⟩ := ih ⟨st.sets ++ [st.read a]⟩
      refine ⟨[st.read a] ++ ext, ?_⟩
      simp only [copyBuckets, Store.alloc]
      rw [hext]
      simp

theorem copyBuckets_addrs (st : Store) (l : BucketMapRef) :
    ∀ p ∈ (copyBuckets st l).2, st.sets.length ≤ p.2 := by
  induction l generalizing st with
  | nil => intro p hp; cases hp
  | cons q rest ih =>
      rcases q with ⟨k, a⟩
      intro p hp
      simp only [copyBuckets] at hp
      rcases List.mem_cons.mp hp with rfl | hmem
      · exact Nat.le_refl _
      · have := ih ⟨st.sets ++ [st.read a]⟩ p hmem
        simp only [Store.alloc] at this
        simp at this
        omega

theorem read_write_ne (st : Store) (a b : ℕ) (s : Finset Card) (h : b ≠ a) :
    (st.write a s).read b = st.read b := by
  simp only [Store.read, Store.write]
  rw [List.getD_eq_getElem?_getD, List.getD_eq_getElem?_getD,
    List.getElem?_set_ne (fun hc => h hc.symm)]

theorem read_of_sets_append {st1 st2 : Store} {ext : List (Finset Card)}
    (h : st1.sets = st2.sets ++ ext) {b : ℕ} (hb : b < st2.sets.length) :
    st1.read b = st2.read b := by
  simp only [Store.read, h]
  rw [List.getD_eq_getElem?_getD, List.getD_eq_getElem?_getD,
    List.getElem?_append, if_pos hb]

theorem write_sets_length (st : Store) (a : ℕ) (s : Finset Card) :
    (st.write a s).sets.length = st.sets.length := by
  simp [Store.write]

theorem findAndDelete_length (st : Store) (card : Card) (l : BucketMapRef) :
    (findAndDelete st card l).1.sets.length = st.sets.length := by
  induction l generalizing st with
  | nil => rfl
  | cons p rest ih =>
      rcases p with ⟨k, a⟩
      simp only [findAndDelete]
      by_cases h : card ∈ st.read a
      · rw [if_pos h]
        exact write_sets_length st a _
      · rw [if_neg h]
        exact ih st

theorem findAndDelete_read (st : Store) (card : Card) (l : BucketMapRef)
    {b : ℕ} (hb : ∀ p ∈ l, b ≠ p.2) :
    (findAndDelete st card l).1.read b = st.read b := by
  induction l generalizing st with
  | nil => rfl
  | cons p rest ih =>
      rcases p with ⟨k, a⟩
      simp only [findAndDelete]
      by_cases h : card ∈ st.read a
      · rw [if_pos h]
        exact read_write_ne st a b _ (hb (k, a) (List.mem_cons_self _ _))
      · rw [if_neg h]
        exact ih st (fun q hq => hb q (List.mem_cons_of_mem _ hq))

theorem find?_append_none {α : Type _} {p : α → Bool} {l1 : List α}
    (h : l1.find? p = none) (l2 : List α) :
    (l1 ++ l2).find? p = l2.find? p := by
  induction l1 with
  | nil => rfl
  | cons a rest ih =>
      have hfa : ¬ p a = true := by
        intro hc
        rw [List.find?_cons_of_pos rest hc] at h
        cases h
      have hrest : rest.find? p = none := by
        rw [List.find?_cons_of_neg rest hfa] at h
        exact h
      rw [List.cons_append, List.find?_cons_of_neg _ hfa]
      exact ih hrest

theorem addCardRef_spec (st2 : Store) (m2 : BucketMapRef) (nb : ℕ)
    (card : Card) (N : ℕ) (hN : N ≤ st2.sets.length)
    (haddr : ∀ p ∈ m2, N ≤ p.2) :
    (∀ a, a < N → (addCardRef st2 m2 nb card).1.read a = st2.read a) ∧
    (∀ p ∈ (addCardRef st2 m2 nb card).2, N ≤ p.2) := by
  simp only [addCardRef, Store.alloc]
  by_cases hhas : (m2.find? (fun p => p.1 == nb)).isSome = true
  · rw [if_pos hhas]
    obtain ⟨p, hp⟩ := Option.isSome_iff_exists.mp hhas
    rw [hp]
    have hple := haddr p (List.mem_of_find?_eq_some hp)
    exact ⟨fun a ha => read_write_ne st2 p.2 a _ (by omega),
      fun q hq => haddr q hq⟩
  · rw [if_neg hhas]
    have hnone : m2.find? (fun p => p.1 == nb) = none := by
      cases hf : m2.find? (fun p => p.1 == nb) with
      | none => rfl
      | some q => rw [hf] at hhas; simp at hhas
    rw [find?_append_none hnone]
    rw [List.find?_cons_of_pos _ (by simp)]
    constructor
    · intro a ha
      have h1 : (Store.mk (st2.sets ++ [∅])).read a = st2.read a :=
        read_of_sets_append rfl (by omega)
      rw [read_write_ne _ _ _ _ (by simp; omega), h1]
    · intro q hq
      rcases List.mem_append.mp hq with hq1 | hq2
      · exact haddr q hq1
      · have : q = (nb, st2.sets.length) := by simpa using hq2
        rw [this]
        exact hN

/-! ### C6: update leaves the caller state untouched -/

/-- C6: on the heap model, `updateRef` never touches a pre-existing heap
object — every previously allocated address reads the same set value after
the call — and the returned map holds only freshly allocated addresses
(fresh copies), so the caller's map and every set inside it are unchanged. -/
theorem update_preserves_caller_state (st : Store) (buckets : BucketMapRef)
    (card : Card) (d : AnswerDifficulty) :
    (∀ a, a < st.sets.length →
      (updateRef st buckets card d).1.read a = st.read a) ∧
    (∀ p ∈ (updateRef st buckets card d).2, st.sets.length ≤ p.2) := by
  obtain ⟨ext, hext⟩ := copyBuckets_sets_append st buckets
  have hcopy_addrs := copyBuckets_addrs st buckets
  have hclen : st.sets.length ≤ (copyBuckets st buckets).1.sets.length := by
    rw [hext]
    simp
  have hflen := findAndDelete_length (copyBuckets st buckets).1 card
    (copyBuckets st buckets).2
  have hread_f : ∀ a, a < st.sets.length →
      (findAndDelete (copyBuckets st buckets).1 card
        (copyBuckets st buckets).2).1.read a = st.read a := by
    intro a ha
    rw [findAndDelete_read (copyBuckets st buckets).1 card
      (copyBuckets st buckets).2
      (fun p hp => by have := hcopy_addrs p hp; omega)]
    exact read_of_sets_append hext ha
  have hN : st.sets.length ≤ (findAndDelete (copyBuckets st buckets).1 card
      (copyBuckets st buckets).2).1.sets.length := by
    rw [hflen]
    exact hclen
  constructor
  · intro a ha
    simp only [updateRef]
    rw [(addCardRef_spec _ _ _ card st.sets.length hN hcopy_addrs).1 a ha]
    exact hread_f a ha
  · intro p hp
    simp only [updateRef] at hp
    exact (addCardRef_spec _ _ _ card st.sets.length hN hcopy_addrs).2 p hp

/-- Witness for C6: a store with one set `{5}` shared with the caller is
unchanged by an update of that card. -/
theorem update_preserves_caller_state_witness :
    (updateRef ⟨[{5}]⟩ [(0, 0)] 5 .Wrong).1.read 0 = Store.read ⟨[{5}]⟩ 0 :=
  (update_preserves_caller_state ⟨[{5}]⟩ [(0, 0)] 5 .Wrong).1 0 (by decide)

end Flashcards
